import Mathlib

/-!
# ds-sorter: shallow embedding of `src/ds-sorter.ts`

This file embeds the rule parser (`parseToRules`), the serializer (the `by`
getter of `DsSorter`), the comparator (`DsSorter.#compareElements`) and the
value-normalizing lookup (`DsSorter.#getValue`) of the `ds-sorter` web
component, and proves the specification's claims about them.

Modelling conventions:
* JS strings are `List Char`.  Literal brace characters are written with
  their escapes to keep string literals plain.
* JS runtime values that can flow out of `#getValue` are modelled by
  `JSVal`.  Reference identity of objects, symbols and functions is
  modelled by an explicit `id : Nat` tag; `NaN` is a separate constructor
  (the only float-specific behaviour the code inspects is `isNaN`).
* `Math.random` (the `random` option) is not shallow-embeddable; every
  claim below conditions on `random` being unset, so the embedded
  comparator models the deterministic paths of `#compareElements`.
-/

namespace DsSorter

/-- One rule's key: an attribute name, or a path of property segments,
mirroring `key: string | string[]` of the `Rule` interface. -/
inductive RKey where
  | attr (name : List Char)
  | path (segs : List (List Char))
  deriving DecidableEq, Repr

/-- The `Rule` interface: `key`, optional `selector`, `descending`.
JS leaves `descending` possibly `undefined`; the code only ever tests its
truthiness, so `Bool` (with `false` for `undefined`) is a faithful model,
and likewise `selector : Option _` with `none` for `undefined`. -/
structure Rule where
  key : RKey
  selector : Option (List Char)
  descending : Bool
  deriving DecidableEq, Repr

/-- Characters the JS regex class `\s` matches: the ECMAScript WhiteSpace
and LineTerminator sets — tab, line feed, vertical tab, form feed,
carriage return, space, no-break space, Ogham space mark, the en-quad
through hair-space range, line and paragraph separators, narrow no-break
space, medium mathematical space, ideographic space, and the BOM. -/
def jsSpace (c : Char) : Bool :=
  c = ' ' || c = '\t' || c = '\n' || c = '\r' || c = '\x0b' || c = '\x0c' ||
  c = '\u00A0' || c = '\u1680' ||
  ('\u2000' ≤ c && c ≤ '\u200A') ||
  c = '\u2028' || c = '\u2029' || c = '\u202F' || c = '\u205F' ||
  c = '\u3000' || c = '\uFEFF'

/-- Drop the maximal leading run of `\s` characters. -/
def dropSpaces : List Char → List Char
  | [] => []
  | c :: rest => if jsSpace c then dropSpaces rest else c :: rest

/-- Prepend a character to the first piece of a split result. -/
def consHead (c : Char) : List (List Char) → List (List Char)
  | [] => [[c]]
  | h :: t => (c :: h) :: t

/-- The lookahead body `[^\x7b\x7d]*\x7d` of the clause-splitting regex:
it matches at a position iff the first brace character from there on is a
closing brace. -/
def braceAheadClosed : List Char → Bool
  | [] => false
  | c :: rest =>
    if c = '\x7d' then true
    else if c = '\x7b' then false
    else braceAheadClosed rest

/-- `value.split(<comma not followed by closebrace-before-openbrace>)`
without the separator's trailing `\s*`: split at every comma whose
lookahead fails.  (Backtracking inside `\s*` never changes the lookahead's
verdict because whitespace is not a brace character, so checking the
lookahead directly after the comma is exact.) -/
def splitCommasRaw : List Char → List (List Char)
  | [] => [[]]
  | c :: rest =>
    if c = ',' && !braceAheadClosed rest then [] :: splitCommasRaw rest
    else consHead c (splitCommasRaw rest)

/-- The full clause split of `parseToRules`.  The separator consumes
`,\s*`, i.e. each piece after the first loses its leading whitespace run
(whitespace is neither a comma nor a brace, so consuming it inside the
separator or trimming it from the following piece agree). -/
def splitCommas (s : List Char) : List (List Char) :=
  match splitCommasRaw s with
  | [] => []
  | h :: t => h :: t.map dropSpaces

/-- `stringRule.replace(<openbrace>, <empty>)`: drop the first opening
brace, if any. -/
def replaceFirstBrace : List Char → List Char
  | [] => []
  | c :: rest => if c = '\x7b' then rest else c :: replaceFirstBrace rest

/-- `.split(<closebrace plus spaces>)` without the separator's `\s*`. -/
def splitCloseBraceRaw : List Char → List (List Char)
  | [] => [[]]
  | c :: rest =>
    if c = '\x7d' then [] :: splitCloseBraceRaw rest
    else consHead c (splitCloseBraceRaw rest)

/-- `.split(<closebrace plus spaces>)`: the separator consumes the
whitespace run after each closing brace. -/
def splitCloseBrace (s : List Char) : List (List Char) :=
  match splitCloseBraceRaw s with
  | [] => []
  | h :: t => h :: t.map dropSpaces

/-- `key.split(<dot>)`. -/
def splitDot : List Char → List (List Char)
  | [] => [[]]
  | c :: rest =>
    if c = '.' then [] :: splitDot rest
    else consHead c (splitDot rest)

/-- The fallback key segment `innerText`. -/
def innerTextKey : List Char := 'i' :: 'n' :: 'n' :: 'e' :: 'r' :: 'T' :: 'e' :: 'x' :: 't' :: []

/-- `[rawKey, selector] = stringRule.replace(...).split(...).reverse()`:
the raw key expression of one clause. -/
def clauseRawKey (stringRule : List Char) : List Char :=
  ((splitCloseBrace (replaceFirstBrace stringRule)).reverse).headD []

/-- The selector position of one clause (second element of the reversed
split, `undefined` when the split produced a single piece). -/
def clauseSelector (stringRule : List Char) : Option (List Char) :=
  ((splitCloseBrace (replaceFirstBrace stringRule)).reverse).tail.head?

/-- The raw key after stripping a leading `>` modifier
(`if (descending) key = key.slice(1)`). -/
def clauseStripped (stringRule : List Char) : List Char :=
  let rawKey := clauseRawKey stringRule
  if rawKey.head? = some '>' then rawKey.tail else rawKey

/-- Parse one comma-separated clause into a `Rule`, following the body of
the `map` inside `parseToRules`: detect `>`, detect a leading `.` and
split into path segments dropping the first (empty) piece, and fall back
to `['innerText']` when the remaining key expression is the empty string.
(The `key === undefined` arm of the fallback is unreachable: the reversed
split is never empty, so `rawKey` is always a string.) -/
def parseClause (stringRule : List Char) : Rule :=
  let descending := (clauseRawKey stringRule).head? = some '>'
  let key1 := clauseStripped stringRule
  let key : RKey :=
    if key1.head? = some '.' then .path (splitDot key1).tail
    else if key1 = [] then .path [innerTextKey]
    else .attr key1
  ⟨key, clauseSelector stringRule, descending⟩

/-- `parseToRules(value)`: `null` and the empty string give no rules;
otherwise split into clauses and parse each. -/
def parseToRules (value : Option (List Char)) : List Rule :=
  match value with
  | none => []
  | some v => if v = [] then [] else (splitCommas v).map parseClause

/-- `Array.prototype.join(<comma space>)`. -/
def joinRules : List (List Char) → List Char
  | [] => []
  | [x] => x
  | x :: xs => x ++ ',' :: ' ' :: joinRules xs

/-- `rule.key.join(<dot>)`. -/
def joinDot : List (List Char) → List Char
  | [] => []
  | [x] => x
  | x :: xs => x ++ '.' :: joinDot xs

/-- Rendering of a key: a bare attribute name, or a dot-joined property
path with a leading dot. -/
def keyStr : RKey → List Char
  | .attr k => k
  | .path segs => '.' :: joinDot segs

/-- The part of a serialized rule after the mandatory space: the `>`
modifier when descending, then the key expression. -/
def ruleBody (r : Rule) : List Char :=
  (if r.descending then ['>'] else []) ++ keyStr r.key

/-- `rule.selector ? <braced selector> : <empty>` — JS truthiness makes an
empty-string selector render like an absent one. -/
def selPart : Option (List Char) → List Char
  | none => []
  | some s => if s = [] then [] else '\x7b' :: s ++ ['\x7d']

/-- One rule as rendered by the `by` getter's template literal: selector
part, a space (always present), `>` when descending, then the key. -/
def serializeRule (r : Rule) : List Char :=
  selPart r.selector ++ ' ' :: ruleBody r

/-- The `by` getter: serialize every rule and join with a comma-space. -/
def serializeBy (rules : List Rule) : List Char :=
  joinRules (rules.map serializeRule)

/-! ## Runtime values and elements -/

/-- JS runtime values as far as `#getValue` and `#compareElements` can
observe them.  `nan` stands apart from `num` because the code's only
float-specific test is `typeof prop === 'number' && isNaN(prop)`; other
numbers are modelled as integers.  Objects carry an identity tag (strict
equality on objects is reference identity), their `in`-visible properties,
and `vOf`, the result of calling `valueOf()` when that method exists
(`none` models an object with no callable `valueOf`). -/
inductive JSVal where
  | undefV
  | vNull
  | nan
  | num (x : Int)
  | str (s : List Char)
  | boolV (b : Bool)
  | bigintV (n : Int)
  | symV (id : Nat) (description : Option (List Char))
  | funcV (id : Nat)
  | obj (id : Nat) (props : List (List Char × JSVal)) (vOf : Option JSVal)

/-- JS `x == undefined` (and `x != undefined` negated): true exactly for
`undefined` and `null`. -/
def nullish : JSVal → Bool
  | .undefV => true
  | .vNull => true
  | _ => false

/-- JS strict equality `===` on the values `#getValue` can produce:
`NaN` equals nothing (itself included), primitives compare by value,
objects, symbols and functions by reference identity, and values of
different types are never strictly equal. -/
def strictEq : JSVal → JSVal → Bool
  | .undefV, .undefV => true
  | .vNull, .vNull => true
  | .num x, .num y => x = y
  | .str s, .str t => s = t
  | .boolV a, .boolV b => a = b
  | .bigintV a, .bigintV b => a = b
  | .symV i _, .symV j _ => i = j
  | .funcV i, .funcV j => i = j
  | .obj i _ _, .obj j _ _ => i = j
  | _, _ => false

/-- JS `ToNumber` on the value kinds that the comparator's `<` can meet
and that have an exact integer reading; `none` stands for NaN or for a
coercion (strings, objects, symbols, cross-type exotica) that this model
treats conservatively as incomparable.  No claim in scope depends on the
verdicts of `<` beyond the branch structure around it. -/
def toNumForCompare : JSVal → Option Int
  | .num x => some x
  | .boolV b => some (if b then 1 else 0)
  | .bigintV n => some n
  | _ => none

/-- JS string `<`: lexicographic by code unit. -/
def jsStrLt : List Char → List Char → Bool
  | [], [] => false
  | [], _ :: _ => true
  | _ :: _, [] => false
  | c :: s, d :: t => if c = d then jsStrLt s t else decide (c < d)

/-- JS `<` restricted to the cases reaching it in `#compareElements`:
string/string compares lexicographically, numeric kinds compare as
integers, anything NaN-like compares false. -/
def jsLt (a b : JSVal) : Bool :=
  match a, b with
  | .str s, .str t => jsStrLt s t
  | _, _ =>
    match toNumForCompare a, toNumForCompare b with
    | some x, some y => decide (x < y)
    | _, _ => false

/-- The attribute map and `in`-visible properties of one DOM element, as
far as `#getValue` reads them: `getAttribute` yields the associated string
or `null`, property access yields the associated `JSVal`. -/
structure ElemData where
  attrs : List (List Char × List Char)
  props : List (List Char × JSVal)

/-- A slotted element: its own data plus the elements its
`querySelector` resolves, keyed by selector string (`none` on lookup
models `querySelector` returning `null`). -/
structure Element where
  dat : ElemData
  queried : List (List Char × ElemData)

/-- The nested-property walk of `#getValue`: each step requires the
current value to be a non-null object (`prop == undefined ||
typeof prop !== 'object'` bails out) holding the next segment
(`nestedProp in prop`); any failure warns and returns `undefined`,
modelled as `none`. -/
def walkProps : JSVal → List (List Char) → Option JSVal
  | prop, [] => some prop
  | prop, nestedProp :: rest =>
    match prop with
    | .obj _ props _ =>
      match props.lookup nestedProp with
      | some next => walkProps next rest
      | none => none
    | _ => none

/-- The property name `length`. -/
def lengthKey : List Char := 'l' :: 'e' :: 'n' :: 'g' :: 't' :: 'h' :: []

/-- The tail of `#getValue` (lines 256-296): `NaN` becomes `undefined`;
number, string, boolean, bigint, `undefined` and `null` pass through;
a symbol becomes its description (a string or `undefined`); a function
becomes `true`; an object becomes `prop?.length ?? prop?.valueOf?.()`,
i.e. its non-nullish `length` property if any, else the `valueOf()`
result if the method exists, else `undefined`. -/
def normalize (prop : JSVal) : JSVal :=
  match prop with
  | .nan => .undefV
  | .num x => .num x
  | .str s => .str s
  | .boolV b => .boolV b
  | .bigintV n => .bigintV n
  | .undefV => .undefV
  | .vNull => .vNull
  | .symV _ d =>
    match d with
    | some s => .str s
    | none => .undefV
  | .funcV _ => .boolV true
  | .obj _ props vOf =>
    match props.lookup lengthKey with
    | some lv => if nullish lv then vOf.getD .undefV else lv
    | none => vOf.getD .undefV

/-- `#getValue(sortingElem, rule)`: resolve the selector (an empty-string
selector is falsy, so the element itself is used), then read the
attribute (`null` when absent) or walk the property path and normalize.
An empty path destructures to `firstProp === undefined`, which is not a
property of the element, so it warns and yields `undefined` like any
other lookup failure. -/
def getValue (sortingElem : Element) (rule : Rule) : JSVal :=
  let elemOpt : Option ElemData :=
    match rule.selector with
    | some sel =>
      if sel = [] then some sortingElem.dat else sortingElem.queried.lookup sel
    | none => some sortingElem.dat
  match elemOpt with
  | none => .undefV
  | some elem =>
    match rule.key with
    | .attr k =>
      match elem.attrs.lookup k with
      | some v => .str v
      | none => .vNull
    | .path segs =>
      match segs with
      | [] => .undefV
      | firstProp :: nestedProps =>
        match elem.props.lookup firstProp with
        | none => .undefV
        | some p =>
          match walkProps p nestedProps with
          | none => .undefV
          | some prop => normalize prop

/-- The options `#compareElements` reads from the component: the custom
`comparator` property and the global `reverse` flag.  (`random` is
excluded: the `Math.random` branch is non-deterministic by design and
every claim in scope assumes it unset.) -/
structure SorterOpts where
  comparator : Option (Element → Element → Int)
  reverse : Bool

/-- `#compareElements(a, b, rules)` with `random` unset: a supplied
custom comparator short-circuits (negated under `reverse`); otherwise the
head rule is evaluated — `lesser = reverse !== descending ? 1 : -1`,
`greater = -lesser` — equal-or-both-missing values recurse into the rest
(`restRules.length && recurse` yields `0` on an empty rest), a single
nullish value returns `greater`/`lesser`, and otherwise JS `<` decides. -/
def compareElements (o : SorterOpts) (a b : Element) (rules : List Rule) : Int :=
  match o.comparator with
  | some f => f a b * (if o.reverse then -1 else 1)
  | none =>
    match rules with
    | [] => 0
    | rule :: restRules =>
      let firstVal := getValue a rule
      let secondVal := getValue b rule
      let lesser : Int := if o.reverse != rule.descending then 1 else -1
      let greater : Int := -lesser
      if (nullish firstVal && nullish secondVal) || strictEq firstVal secondVal then
        if restRules.length = 0 then 0 else compareElements o a b restRules
      else if nullish firstVal && !nullish secondVal then greater
      else if !nullish firstVal && nullish secondVal then lesser
      else if jsLt firstVal secondVal then lesser
      else greater

/-! ## Concrete inputs used by individual claims -/

/-- Claim-side reading of "array-like": the object's `length` property is
present with a non-nullish value. -/
def arrayLike (props : List (List Char × JSVal)) : Bool :=
  match props.lookup lengthKey with
  | some lv => !nullish lv
  | none => false

/-- An element carrying attribute `k="b"`. -/
def c1ElemA : Element := ⟨⟨[("k".toList, "b".toList)], []⟩, []⟩

/-- An element with no attributes at all. -/
def c1ElemB : Element := ⟨⟨[], []⟩, []⟩

/-- A descending rule on attribute `k`. -/
def c1RuleDesc : Rule := ⟨.attr "k".toList, none, true⟩

/-- An element whose property `n` is `NaN`. -/
def c7ElemNaN : Element := ⟨⟨[], [("n".toList, JSVal.nan)]⟩, []⟩

/-- An element whose property `n` is the number 5. -/
def c7Elem5 : Element := ⟨⟨[], [("n".toList, JSVal.num 5)]⟩, []⟩

/-- A descending rule on the property path `n`. -/
def c7RuleDesc : Rule := ⟨.path ["n".toList], none, true⟩

/-- An element with attribute `m="1"` and no attribute `k`. -/
def c5ElemA : Element := ⟨⟨[("m".toList, "1".toList)], []⟩, []⟩

/-- An element with attribute `m="2"` and no attribute `k`. -/
def c5ElemB : Element := ⟨⟨[("m".toList, "2".toList)], []⟩, []⟩

/-- An ascending rule on attribute `k` (missing on both C5 elements). -/
def c5RuleFirst : Rule := ⟨.attr "k".toList, none, false⟩

/-- An ascending rule on attribute `m` (differing on the C5 elements). -/
def c5RuleSecond : Rule := ⟨.attr "m".toList, none, false⟩

/-- An element with attributes `k="1"` and `junk="x"`. -/
def c10ElemA : Element := ⟨⟨[("k".toList, "1".toList), ("junk".toList, "x".toList)], []⟩, []⟩

/-- An element with attribute `k="1"` and different unrelated state. -/
def c10ElemA2 : Element := ⟨⟨[("k".toList, "1".toList)], []⟩, [("q".toList, ⟨[], []⟩)]⟩

/-- An element with attribute `k="2"`. -/
def c10ElemB : Element := ⟨⟨[("k".toList, "2".toList)], []⟩, []⟩

/-- An ascending rule on attribute `k`, for the C10 witness. -/
def c10Rule : Rule := ⟨.attr "k".toList, none, false⟩

/-- The path segments of a key (empty for attribute keys), for stating
the segment part of claim C8. -/
def segsOf : RKey → List (List Char)
  | .attr _ => []
  | .path segs => segs

/-- A key that is neither the empty attribute string nor the empty
segment sequence. -/
def keyNonEmpty : RKey → Prop
  | .attr k => k ≠ []
  | .path segs => segs ≠ []

/-- Characters legal inside a well-formed attribute key: anything except
the comma and the two braces (which belong to the clause grammar). -/
def keyCharOk (c : Char) : Bool :=
  !(c = ',' || c = '\x7b' || c = '\x7d')

/-- Characters legal inside a well-formed path segment: additionally no
dot (the segment separator). -/
def segCharOk (c : Char) : Bool :=
  !(c = '.' || c = ',' || c = '\x7b' || c = '\x7d')

/-- Characters legal inside a well-formed selector: no braces (commas are
fine — protecting them is the point of the lookahead). -/
def selCharOk (c : Char) : Bool :=
  !(c = '\x7b' || c = '\x7d')

/-- Well-formedness of a key for the round-trip: an attribute key is
non-empty, free of grammar metacharacters, and does not start with the
`>` modifier, the `.` path marker, or JS whitespace (the full regex `\s`
class, see `jsSpace`); a path has at least one
segment and its segments are free of metacharacters and dots. -/
def wfKey : RKey → Bool
  | .attr k =>
    match k with
    | [] => false
    | c0 :: _ => k.all keyCharOk && !(c0 = '>') && !(c0 = '.') && !jsSpace c0
  | .path segs => !segs.isEmpty && segs.all (fun s => s.all segCharOk)

/-- Well-formedness of a selector: absent, or non-empty and brace-free. -/
def wfSelector : Option (List Char) → Bool
  | none => true
  | some s => !s.isEmpty && s.all selCharOk

/-- A rule whose key and selector are well-formed for the round-trip. -/
def wfRule (r : Rule) : Bool :=
  wfKey r.key && wfSelector r.selector

/-- Every rule of the list is well-formed. -/
def wfRules (rules : List Rule) : Bool :=
  rules.all wfRule

/-- The first rule of the list carries a selector (the serializer's
unconditional space otherwise leaks into the first reparsed key). -/
def firstHasSelector : List Rule → Bool
  | [] => true
  | r :: _ => r.selector.isSome

/-- Every comma occurring in the first argument is protected in context:
the clause-splitting lookahead sees a closing brace first in the
remainder of the string (first argument's own tail followed by the
continuation). -/
def commasProtected : List Char → List Char → Bool
  | [], _ => true
  | c :: rest, ys =>
    (if c = ',' then braceAheadClosed (rest ++ ys) else true) && commasProtected rest ys

/-- Append a prefix onto the first piece of a split result. -/
def consAppend (xs : List Char) : List (List Char) → List (List Char)
  | [] => [xs]
  | h :: t => (xs ++ h) :: t

/-- The counterexample rule list for C2: a single selectorless rule on
attribute `href`. -/
def c2CounterRules : List Rule := [⟨.attr "href".toList, none, false⟩]

/-- A well-formed witness rule list for C2: a descending attribute rule
with a comma-bearing selector, then a selectorless property-path rule. -/
def c2WitnessRules : List Rule :=
  [⟨.attr "x".toList, some ("a, b".toList), true⟩,
    ⟨.path ["dataset".toList, "row".toList], none, false⟩]

/-! ## Theorems -/

/-- Claim C1 (code bug): on a rule with `descending = true` (and
`reverse = false`), comparing an item whose looked-up value is present
(`"b"`) against an item whose value is missing returns `1`, i.e. the
present item is ordered AFTER the missing one — the missing value floats
to the start instead of sinking to the end.  This contradicts the claim
(and the code's own comment, which says nullish values are sent to the
end regardless of direction): `lesser`/`greater` are direction-dependent,
so the nullish branches invert together with the sort direction. -/
theorem c1_missing_sink_code_eval :
    getValue c1ElemA c1RuleDesc = .str ['b'] ∧
      nullish (getValue c1ElemB c1RuleDesc) = true ∧
      compareElements ⟨none, false⟩ c1ElemA c1ElemB [c1RuleDesc] = 1 :=
  ⟨rfl, rfl, rfl⟩

/-- Claim C3: parsing a clause list whose selector contains a comma
splits only on the comma outside the braces, yielding the rule with
selector `a, b` and attribute key `x` followed by the bare rule on `y`. -/
theorem c3_comma_in_selector :
    parseToRules (some ("\x7ba, b\x7d x, y".toList)) =
      [⟨.attr "x".toList, some ("a, b".toList), false⟩,
        ⟨.attr "y".toList, none, false⟩] := by
  decide

/-- Claim C6: with a custom comparator supplied (and `random` unset), the
result is exactly the comparator's verdict, negated under the global
`reverse` flag, for every rule list — the rules and the value lookup are
never consulted (the right-hand side does not depend on `rules`). -/
theorem c6_custom_comparator (f : Element → Element → Int) (rv : Bool)
    (a b : Element) (rules : List Rule) :
    compareElements ⟨some f, rv⟩ a b rules = f a b * (if rv then -1 else 1) := by
  cases rules <;> rfl

/-- Claim C7 (code bug): a `NaN` property value is normalized to the
missing sentinel (`undefined`) — that part of the claim holds — but on a
descending rule the comparator then returns `-1`, placing the `NaN` item
BEFORE the item whose value is `5`: it does not sink to the end on every
rule, for the same reason as C1. -/
theorem c7_nan_code_eval :
    getValue c7ElemNaN c7RuleDesc = .undefV ∧
      getValue c7Elem5 c7RuleDesc = .num 5 ∧
      compareElements ⟨none, false⟩ c7ElemNaN c7Elem5 [c7RuleDesc] = -1 :=
  ⟨rfl, rfl, rfl⟩

/-- Claim C9: an object-valued looked-up property normalizes to its
`length` when it is array-like (its `length` property holds a non-nullish
value), otherwise to its `valueOf()` conversion when that method exists,
otherwise to the missing sentinel `undefined`. -/
theorem c9_object_normalization (id : Nat) (props : List (List Char × JSVal))
    (vOf : Option JSVal) :
    (∀ lv, props.lookup lengthKey = some lv → nullish lv = false →
        normalize (.obj id props vOf) = lv) ∧
      (∀ v, arrayLike props = false → vOf = some v →
        normalize (.obj id props vOf) = v) ∧
      (arrayLike props = false → vOf = none →
        normalize (.obj id props vOf) = .undefV) := by
  refine ⟨?_, ?_, ?_⟩
  · intro lv hlv hnn
    simp [normalize, hlv, hnn]
  · intro v hal hv
    unfold normalize
    cases h : props.lookup lengthKey with
    | none => simp [h, hv]
    | some lv =>
      simp only [arrayLike, h] at hal
      have hnl : nullish lv = true := by
        cases hq : nullish lv with
        | true => rfl
        | false => rw [hq] at hal; simp at hal
      simp [h, hnl, hv]
  · intro hal hv
    unfold normalize
    cases h : props.lookup lengthKey with
    | none => simp [h, hv]
    | some lv =>
      simp only [arrayLike, h] at hal
      have hnl : nullish lv = true := by
        cases hq : nullish lv with
        | true => rfl
        | false => rw [hq] at hal; simp at hal
      simp [h, hnl, hv]

/-- Witness for C9: a concrete array-like object yields its length 3, a
concrete object with only a `valueOf` yields that conversion 7, and a
bare object yields `undefined`. -/
theorem c9_object_normalization_witness :
    normalize (.obj 0 [(lengthKey, .num 3)] (some (.num 7))) = .num 3 ∧
      normalize (.obj 0 [] (some (.num 7))) = .num 7 ∧
      normalize (.obj 0 [] none) = .undefV :=
  ⟨(c9_object_normalization 0 [(lengthKey, .num 3)] (some (.num 7))).1 (.num 3) rfl rfl,
    (c9_object_normalization 0 [] (some (.num 7))).2.1 (.num 7) rfl rfl,
    (c9_object_normalization 0 [] none).2.2 rfl rfl⟩

/-- Value lookup ignores the rule's `descending` flag: it reads only the
selector and the key. -/
theorem getValue_descending (e : Element) (r : Rule) (d : Bool) :
    getValue e ⟨r.key, r.selector, d⟩ = getValue e r := by
  cases r; rfl

/-- Claim C5: when the looked-up values under the head rule are both
missing or strictly equal, the comparator's result is the result for the
remaining rule suffix alone, and on an empty rule list the comparator
returns 0.  (The code's `restRules.length && recurse` returns the number
`0` when no rules remain, which coincides with recursing on `[]`.) -/
theorem c5_tie_break (rv : Bool) (a b : Element) (rule : Rule) (rest : List Rule)
    (h : (nullish (getValue a rule) = true ∧ nullish (getValue b rule) = true) ∨
      strictEq (getValue a rule) (getValue b rule) = true) :
    compareElements ⟨none, rv⟩ a b (rule :: rest) = compareElements ⟨none, rv⟩ a b rest ∧
      compareElements ⟨none, rv⟩ a b ([] : List Rule) = 0 := by
  refine ⟨?_, rfl⟩
  have hcond : ((nullish (getValue a rule) && nullish (getValue b rule)) ||
      strictEq (getValue a rule) (getValue b rule)) = true := by
    rcases h with ⟨h1, h2⟩ | h3
    · simp [h1, h2]
    · simp [h3]
  cases rest with
  | nil => simp [compareElements, hcond]
  | cons r2 rs => simp [compareElements, hcond]

/-- Witness for C5: two elements both lacking attribute `k` tie on the
first rule, and the comparator on both rules equals the comparator on the
second rule alone. -/
theorem c5_tie_break_witness :
    (nullish (getValue c5ElemA c5RuleFirst) = true ∧
        nullish (getValue c5ElemB c5RuleFirst) = true) ∧
      compareElements ⟨none, false⟩ c5ElemA c5ElemB [c5RuleFirst, c5RuleSecond] =
        compareElements ⟨none, false⟩ c5ElemA c5ElemB [c5RuleSecond] :=
  ⟨⟨rfl, rfl⟩,
    (c5_tie_break false c5ElemA c5ElemB c5RuleFirst [c5RuleSecond] (Or.inl ⟨rfl, rfl⟩)).1⟩

/-- Claim C4: the effective direction of every rule is the XOR of the
global `reverse` flag and the rule's `descending` flag — comparing under
`reverse = rv` equals comparing under `reverse = false` with every rule's
`descending` replaced by `xor rv descending`.  In particular
`reverse = true` with `descending = true` gives the same result as
`reverse = false` with `descending = false`. -/
theorem c4_reverse_xor_descending (rv : Bool) (a b : Element) (rules : List Rule) :
    compareElements ⟨none, rv⟩ a b rules =
      compareElements ⟨none, false⟩ a b
        (rules.map fun r => ⟨r.key, r.selector, xor rv r.descending⟩) := by
  induction rules with
  | nil => rfl
  | cons rule rest ih =>
    have hx : (false != xor rv rule.descending) = (rv != rule.descending) := by
      cases rv <;> cases rule.descending <;> rfl
    simp only [List.map_cons]
    simp only [compareElements, getValue_descending, hx, List.length_map]
    rw [ih]

/-- Claim C10: with `random` unset and no custom comparator, the
comparison is a deterministic function of the looked-up values — two
pairs of items whose lookups agree on every rule compare identically, so
repeated invocations on an unchanged pair return the same result. -/
theorem c10_deterministic (rv : Bool) (rules : List Rule) (a b a2 b2 : Element)
    (ha : ∀ r ∈ rules, getValue a r = getValue a2 r)
    (hb : ∀ r ∈ rules, getValue b r = getValue b2 r) :
    compareElements ⟨none, rv⟩ a b rules = compareElements ⟨none, rv⟩ a2 b2 rules := by
  induction rules with
  | nil => rfl
  | cons rule rest ih =>
    have ha0 := ha rule (List.mem_cons_self rule rest)
    have hb0 := hb rule (List.mem_cons_self rule rest)
    have ihr := ih (fun r hr => ha r (List.mem_cons_of_mem _ hr))
      (fun r hr => hb r (List.mem_cons_of_mem _ hr))
    simp only [compareElements, ha0, hb0, ihr]

/-- Witness for C10: two elements with the same attribute `k` but
different unrelated state compare identically against a third element. -/
theorem c10_deterministic_witness :
    compareElements ⟨none, false⟩ c10ElemA c10ElemB [c10Rule] =
      compareElements ⟨none, false⟩ c10ElemA2 c10ElemB [c10Rule] :=
  c10_deterministic false [c10Rule] c10ElemA c10ElemB c10ElemA2 c10ElemB
    (fun r hr => by
      have hr1 : r = c10Rule := by simpa using hr
      subst hr1; rfl)
    (fun r hr => by
      have hr1 : r = c10Rule := by simpa using hr
      subst hr1; rfl)

/-- `consHead` never returns the empty list of pieces. -/
theorem consHead_ne_nil (c : Char) (l : List (List Char)) : consHead c l ≠ [] := by
  cases l <;> simp [consHead]

/-- `splitDot` never returns an empty list of pieces. -/
theorem splitDot_ne_nil (xs : List Char) : splitDot xs ≠ [] := by
  induction xs with
  | nil => simp [splitDot]
  | cons c rest ih =>
    unfold splitDot
    by_cases h : c = '.'
    · simp [h]
    · simp only [if_neg h]
      exact consHead_ne_nil c (splitDot rest)

/-- Every parsed clause has a non-empty key. -/
theorem parseClause_keyNonEmpty (c : List Char) : keyNonEmpty (parseClause c).key := by
  unfold parseClause
  dsimp only
  by_cases h1 : (clauseStripped c).head? = some '.'
  · rw [if_pos h1]
    obtain ⟨t, ht⟩ : ∃ t, clauseStripped c = '.' :: t := by
      cases hk : clauseStripped c with
      | nil => rw [hk] at h1; simp at h1
      | cons c0 t =>
        rw [hk] at h1
        simp only [List.head?_cons, Option.some.injEq] at h1
        exact ⟨t, by rw [h1]⟩
    rw [ht]
    simp only [splitDot, if_pos rfl, List.tail_cons, keyNonEmpty]
    exact splitDot_ne_nil t
  · rw [if_neg h1]
    by_cases h2 : clauseStripped c = []
    · simp [h2, keyNonEmpty]
    · simp [h2, keyNonEmpty]

/-- Counterexample to C8: parsing the clause `.` produces a property-path
key with a single empty segment, so not every path segment is non-empty. -/
theorem c8_counterexample :
    parseToRules (some (".".toList)) = [⟨.path [[]], none, false⟩] ∧
      ¬ (∀ r ∈ parseToRules (some (".".toList)), ∀ seg ∈ segsOf r.key, seg ≠ []) := by
  constructor
  · decide
  · decide

/-- Claim C8 as amended: every rule the parser produces has a key that is
neither the empty attribute string nor the empty segment sequence, and a
clause whose key expression is empty after stripping the selector and the
`>` modifier receives the fallback key `['innerText']`; path segments,
however, may be empty strings (see the counterexample `.`). -/
theorem c8_amended :
    (∀ s : List Char, ∀ r ∈ parseToRules (some s), keyNonEmpty r.key) ∧
      (∀ c : List Char, clauseStripped c = [] → (parseClause c).key = .path [innerTextKey]) := by
  constructor
  · intro s r hr
    dsimp only [parseToRules] at hr
    by_cases hs : s = []
    · simp [hs] at hr
    · rw [if_neg hs] at hr
      obtain ⟨c, _, hc⟩ := List.mem_map.mp hr
      rw [← hc]
      exact parseClause_keyNonEmpty c
  · intro c hc
    unfold parseClause
    dsimp only
    rw [hc]
    simp

/-- Witness for C8: the rule parsed from `x` has the non-empty key `x`,
and the empty clause receives the fallback key. -/
theorem c8_amended_witness :
    keyNonEmpty (Rule.mk (.attr ['x']) none false).key ∧
      (parseClause []).key = .path [innerTextKey] :=
  ⟨c8_amended.1 ['x'] ⟨.attr ['x'], none, false⟩ (by decide),
    c8_amended.2 [] rfl⟩

/-- Counterexample to C2: serializing the single selectorless rule on
attribute `href` and re-parsing does not give the rule back — the
serializer's unconditional space before the key expression becomes part
of the first reparsed key (`" href"`). -/
theorem c2_roundtrip_counterexample :
    parseToRules (some (serializeBy c2CounterRules)) ≠ c2CounterRules ∧
      parseToRules (some (serializeBy c2CounterRules)) =
        [⟨.attr (' ' :: "href".toList), none, false⟩] := by
  constructor
  · decide
  · decide

/-- A segment-legal character is key-legal. -/
theorem segCharOk_keyCharOk {c : Char} (h : segCharOk c = true) : keyCharOk c = true := by
  by_cases h1 : c = ','
  · simp [segCharOk, h1] at h
  · by_cases h2 : c = '\x7b'
    · simp [segCharOk, h2] at h
    · by_cases h3 : c = '\x7d'
      · simp [segCharOk, h3] at h
      · simp [keyCharOk, h1, h2, h3]

/-- A key-legal character is selector-legal (brace-free). -/
theorem keyCharOk_selCharOk {c : Char} (h : keyCharOk c = true) : selCharOk c = true := by
  by_cases h2 : c = '\x7b'
  · simp [keyCharOk, h2] at h
  · by_cases h3 : c = '\x7d'
    · simp [keyCharOk, h3] at h
    · simp [selCharOk, h2, h3]

/-- A key-legal character is not a comma. -/
theorem keyCharOk_ne_comma {c : Char} (h : keyCharOk c = true) : c ≠ ',' := by
  intro h1
  simp [keyCharOk, h1] at h

/-- A selector-legal character is not a brace. -/
theorem selCharOk_spec {c : Char} (h : selCharOk c = true) :
    c ≠ '\x7b' ∧ c ≠ '\x7d' := by
  constructor
  · intro h1; simp [selCharOk, h1] at h
  · intro h1; simp [selCharOk, h1] at h

/-- One-step unfolding of `splitCommasRaw` on a cons cell. -/
theorem splitCommasRaw_cons (c : Char) (rest : List Char) :
    splitCommasRaw (c :: rest) =
      if c = ',' && !braceAheadClosed rest then [] :: splitCommasRaw rest
      else consHead c (splitCommasRaw rest) := rfl

/-- The lookahead skips a brace-free prefix. -/
theorem braceAheadClosed_append_braceFree {xs : List Char} (ys : List Char)
    (h : xs.all selCharOk = true) :
    braceAheadClosed (xs ++ ys) = braceAheadClosed ys := by
  induction xs with
  | nil => rfl
  | cons c rest ih =>
    simp only [List.all_cons, Bool.and_eq_true] at h
    obtain ⟨hne1, hne2⟩ := selCharOk_spec h.1
    simp only [List.cons_append, braceAheadClosed, if_neg hne2, if_neg hne1]
    exact ih h.2

/-- The lookahead fails on a brace-free string. -/
theorem braceAheadClosed_braceFree {xs : List Char} (h : xs.all selCharOk = true) :
    braceAheadClosed xs = false := by
  have hx := @braceAheadClosed_append_braceFree xs [] h
  simpa using hx

/-- A successful lookahead stays successful under appending. -/
theorem braceAheadClosed_true_append {xs : List Char} (ys : List Char)
    (h : braceAheadClosed xs = true) :
    braceAheadClosed (xs ++ ys) = true := by
  induction xs with
  | nil => simp [braceAheadClosed] at h
  | cons c rest ih =>
    by_cases h1 : c = '\x7d'
    · simp [braceAheadClosed, h1]
    · by_cases h2 : c = '\x7b'
      · simp [braceAheadClosed, h1, h2] at h
      · simp only [braceAheadClosed, if_neg h1, if_neg h2] at h
        simp only [List.cons_append, braceAheadClosed, if_neg h1, if_neg h2]
        exact ih h

/-- Protection of commas splits over an append. -/
theorem commasProtected_append (xs ys zs : List Char) :
    commasProtected (xs ++ ys) zs =
      (commasProtected xs (ys ++ zs) && commasProtected ys zs) := by
  induction xs with
  | nil => simp [commasProtected]
  | cons c rest ih =>
    show commasProtected (c :: (rest ++ ys)) zs = _
    rw [show commasProtected (c :: (rest ++ ys)) zs =
      ((if c = ',' then braceAheadClosed ((rest ++ ys) ++ zs) else true) &&
        commasProtected (rest ++ ys) zs) from rfl]
    rw [show commasProtected (c :: rest) (ys ++ zs) =
      ((if c = ',' then braceAheadClosed (rest ++ (ys ++ zs)) else true) &&
        commasProtected rest (ys ++ zs)) from rfl]
    rw [ih, List.append_assoc, Bool.and_assoc]

/-- A comma-free string is protected in every context. -/
theorem commasProtected_of_commaFree {xs : List Char} (ys : List Char)
    (h : ∀ c ∈ xs, c ≠ ',') : commasProtected xs ys = true := by
  induction xs with
  | nil => rfl
  | cons c rest ih =>
    have hc : c ≠ ',' := h c (List.mem_cons_self c rest)
    simp only [commasProtected, if_neg hc, Bool.true_and]
    exact ih fun d hd => h d (List.mem_cons_of_mem c hd)

/-- A brace-free string is protected when a closing brace follows it. -/
theorem commasProtected_braceFree_close {xs : List Char} (ys : List Char)
    (h : xs.all selCharOk = true) :
    commasProtected xs ('\x7d' :: ys) = true := by
  induction xs with
  | nil => rfl
  | cons c rest ih =>
    simp only [List.all_cons, Bool.and_eq_true] at h
    simp only [commasProtected, Bool.and_eq_true]
    refine ⟨?_, ih h.2⟩
    by_cases hc : c = ','
    · rw [if_pos hc]
      rw [braceAheadClosed_append_braceFree ('\x7d' :: ys) h.2]
      simp [braceAheadClosed]
    · rw [if_neg hc]

/-- `splitCommasRaw` always returns at least one piece. -/
theorem splitCommasRaw_ne_nil (s : List Char) : splitCommasRaw s ≠ [] := by
  induction s with
  | nil => simp [splitCommasRaw]
  | cons c rest ih =>
    unfold splitCommasRaw
    by_cases h : (c = ',' && !braceAheadClosed rest) = true
    · simp [h]
    · simp only [h, if_false, Bool.false_eq_true]
      exact consHead_ne_nil c (splitCommasRaw rest)

/-- Splitting a concatenation whose first part has only protected commas
prepends that part onto the first piece of the remainder's split. -/
theorem splitCommasRaw_append {xs : List Char} (ys : List Char)
    (h : commasProtected xs ys = true) :
    splitCommasRaw (xs ++ ys) = consAppend xs (splitCommasRaw ys) := by
  induction xs with
  | nil =>
    cases hy : splitCommasRaw ys with
    | nil => exact absurd hy (splitCommasRaw_ne_nil ys)
    | cons h0 t0 => simp [consAppend, hy]
  | cons c rest ih =>
    simp only [commasProtected, Bool.and_eq_true] at h
    have hrec := ih h.2
    have hcond : (c = ',' && !braceAheadClosed (rest ++ ys)) = false := by
      by_cases hc : c = ','
      · rw [if_pos hc] at h
        simp [hc, h.1]
      · simp [hc]
    have hstep : splitCommasRaw ((c :: rest) ++ ys) =
        consHead c (splitCommasRaw (rest ++ ys)) := by
      rw [List.cons_append, splitCommasRaw_cons, hcond]
      simp
    rw [hstep, hrec]
    cases hy : splitCommasRaw ys with
    | nil => exact absurd hy (splitCommasRaw_ne_nil ys)
    | cons h0 t0 => simp [consAppend, consHead]

/-- A segment-legal character is not a dot. -/
theorem segCharOk_ne_dot {c : Char} (h : segCharOk c = true) : c ≠ '.' := by
  intro h1
  simp [segCharOk, h1] at h

/-- The dot-join of segment-legal segments consists of key-legal
characters. -/
theorem joinDot_all {segs : List (List Char)}
    (h : ∀ s ∈ segs, s.all segCharOk = true) :
    (joinDot segs).all keyCharOk = true := by
  induction segs with
  | nil => rfl
  | cons x xs ih =>
    have hx : x.all keyCharOk = true := by
      have := h x (List.mem_cons_self x xs)
      simp only [List.all_eq_true] at this ⊢
      exact fun c hc => segCharOk_keyCharOk (this c hc)
    cases xs with
    | nil => simpa [joinDot] using hx
    | cons y ys =>
      have hrest := ih fun s hs => h s (List.mem_cons_of_mem x hs)
      show ((x ++ '.' :: joinDot (y :: ys)).all keyCharOk) = true
      simp only [List.all_append, List.all_cons, Bool.and_eq_true]
      exact ⟨hx, by decide, hrest⟩

/-- The rendering of a well-formed key consists of key-legal characters. -/
theorem keyStr_all {k : RKey} (h : wfKey k = true) :
    (keyStr k).all keyCharOk = true := by
  cases k with
  | attr s =>
    cases s with
    | nil => simp [wfKey] at h
    | cons c0 rest =>
      simp only [wfKey, Bool.and_eq_true] at h
      exact h.1.1.1
  | path segs =>
    simp only [wfKey, Bool.and_eq_true] at h
    show (('.' :: joinDot segs).all keyCharOk) = true
    simp only [List.all_cons, Bool.and_eq_true]
    refine ⟨by decide, joinDot_all ?_⟩
    intro s hs
    exact (List.all_eq_true.mp h.2) s hs

/-- The body of a well-formed serialized rule consists of key-legal
characters (so no comma, no brace). -/
theorem ruleBody_all {r : Rule} (h : wfRule r = true) :
    (ruleBody r).all keyCharOk = true := by
  simp only [wfRule, Bool.and_eq_true] at h
  unfold ruleBody
  simp only [List.all_append, Bool.and_eq_true]
  refine ⟨?_, keyStr_all h.1⟩
  cases r.descending <;> decide

/-- The body of a well-formed serialized rule is non-empty. -/
theorem ruleBody_ne_nil {r : Rule} (h : wfRule r = true) : ruleBody r ≠ [] := by
  obtain ⟨k, sel, d⟩ := r
  simp only [wfRule, Bool.and_eq_true] at h
  cases d with
  | true => simp [ruleBody]
  | false =>
    cases k with
    | attr s =>
      cases s with
      | nil => simp [wfKey] at h
      | cons c0 rest => simp [ruleBody, keyStr]
    | path segs => simp [ruleBody, keyStr]

/-- Dropping leading whitespace is the identity on a string whose head is
not whitespace. -/
theorem dropSpaces_of_head {c : Char} (xs : List Char) (h : jsSpace c = false) :
    dropSpaces (c :: xs) = c :: xs := by
  simp [dropSpaces, h]

/-- Dropping leading whitespace passes a leading space. -/
theorem dropSpaces_space (xs : List Char) : dropSpaces (' ' :: xs) = dropSpaces xs := rfl

/-- The body of a well-formed serialized rule does not start with
whitespace, so dropping leading whitespace leaves it unchanged. -/
theorem dropSpaces_ruleBody {r : Rule} (h : wfRule r = true) :
    dropSpaces (ruleBody r) = ruleBody r := by
  obtain ⟨k, sel, d⟩ := r
  simp only [wfRule, Bool.and_eq_true] at h
  cases d with
  | true =>
    show dropSpaces ('>' :: keyStr k) = '>' :: keyStr k
    exact dropSpaces_of_head _ (by decide)
  | false =>
    cases k with
    | attr s =>
      cases s with
      | nil => simp [wfKey] at h
      | cons c0 rest =>
        have hw : jsSpace c0 = false := by
          have h1 := h.1
          simp only [wfKey, Bool.and_eq_true, Bool.not_eq_true'] at h1
          exact h1.2
        show dropSpaces (c0 :: rest) = c0 :: rest
        exact dropSpaces_of_head _ hw
    | path segs =>
      show dropSpaces ('.' :: joinDot segs) = '.' :: joinDot segs
      exact dropSpaces_of_head _ (by decide)

/-- One-step unfolding of `splitCloseBraceRaw` on a cons cell. -/
theorem splitCloseBraceRaw_cons (c : Char) (rest : List Char) :
    splitCloseBraceRaw (c :: rest) =
      if c = '\x7d' then [] :: splitCloseBraceRaw rest
      else consHead c (splitCloseBraceRaw rest) := rfl

/-- `splitCloseBraceRaw` is the identity split on a string without
closing braces. -/
theorem splitCloseBraceRaw_noClose {xs : List Char}
    (h : ∀ c ∈ xs, c ≠ '\x7d') : splitCloseBraceRaw xs = [xs] := by
  induction xs with
  | nil => rfl
  | cons c rest ih =>
    rw [splitCloseBraceRaw_cons, if_neg (h c (List.mem_cons_self c rest))]
    rw [ih fun d hd => h d (List.mem_cons_of_mem c hd)]
    rfl

/-- Splitting at the first closing brace after a close-free prefix. -/
theorem splitCloseBraceRaw_append {xs : List Char} (ys : List Char)
    (h : ∀ c ∈ xs, c ≠ '\x7d') :
    splitCloseBraceRaw (xs ++ '\x7d' :: ys) = xs :: splitCloseBraceRaw ys := by
  induction xs with
  | nil => simp [splitCloseBraceRaw_cons]
  | cons c rest ih =>
    rw [List.cons_append, splitCloseBraceRaw_cons,
      if_neg (h c (List.mem_cons_self c rest)),
      ih fun d hd => h d (List.mem_cons_of_mem c hd)]
    rfl

/-- `replaceFirstBrace` is the identity on a string without opening
braces. -/
theorem replaceFirstBrace_noOpen {xs : List Char}
    (h : ∀ c ∈ xs, c ≠ '\x7b') : replaceFirstBrace xs = xs := by
  induction xs with
  | nil => rfl
  | cons c rest ih =>
    unfold replaceFirstBrace
    rw [if_neg (h c (List.mem_cons_self c rest))]
    rw [ih fun d hd => h d (List.mem_cons_of_mem c hd)]

/-- One-step unfolding of `splitDot` on a cons cell. -/
theorem splitDot_cons (c : Char) (rest : List Char) :
    splitDot (c :: rest) =
      if c = '.' then [] :: splitDot rest
      else consHead c (splitDot rest) := rfl

/-- `splitDot` is the identity split on a dot-free string. -/
theorem splitDot_noDot {xs : List Char} (h : ∀ c ∈ xs, c ≠ '.') :
    splitDot xs = [xs] := by
  induction xs with
  | nil => rfl
  | cons c rest ih =>
    rw [splitDot_cons, if_neg (h c (List.mem_cons_self c rest))]
    rw [ih fun d hd => h d (List.mem_cons_of_mem c hd)]
    rfl

/-- Splitting at the first dot after a dot-free prefix. -/
theorem splitDot_append {xs : List Char} (ys : List Char)
    (h : ∀ c ∈ xs, c ≠ '.') :
    splitDot (xs ++ '.' :: ys) = xs :: splitDot ys := by
  induction xs with
  | nil => simp [splitDot_cons]
  | cons c rest ih =>
    rw [List.cons_append, splitDot_cons, if_neg (h c (List.mem_cons_self c rest)),
      ih fun d hd => h d (List.mem_cons_of_mem c hd)]
    rfl

/-- Splitting the dot-join of non-empty, dot-free segments recovers the
segments. -/
theorem splitDot_joinDot {segs : List (List Char)} (hne : segs ≠ [])
    (h : ∀ s ∈ segs, s.all segCharOk = true) :
    splitDot (joinDot segs) = segs := by
  induction segs with
  | nil => exact absurd rfl hne
  | cons x xs ih =>
    have hx : ∀ c ∈ x, c ≠ '.' := by
      intro c hc
      have := h x (List.mem_cons_self x xs)
      simp only [List.all_eq_true] at this
      exact segCharOk_ne_dot (this c hc)
    cases xs with
    | nil => exact splitDot_noDot hx
    | cons y ys =>
      show splitDot (x ++ '.' :: joinDot (y :: ys)) = x :: y :: ys
      rw [splitDot_append _ hx]
      rw [ih (by simp) fun s hs => h s (List.mem_cons_of_mem x hs)]

/-- A string of key-legal characters holds no closing brace. -/
theorem all_keyCharOk_no_close {xs : List Char} (h : xs.all keyCharOk = true) :
    ∀ c ∈ xs, c ≠ '\x7d' :=
  fun c hc => (selCharOk_spec (keyCharOk_selCharOk ((List.all_eq_true.mp h) c hc))).2

/-- A string of key-legal characters holds no opening brace. -/
theorem all_keyCharOk_no_open {xs : List Char} (h : xs.all keyCharOk = true) :
    ∀ c ∈ xs, c ≠ '\x7b' :=
  fun c hc => (selCharOk_spec (keyCharOk_selCharOk ((List.all_eq_true.mp h) c hc))).1

/-- A string of key-legal characters holds no comma. -/
theorem all_keyCharOk_no_comma {xs : List Char} (h : xs.all keyCharOk = true) :
    ∀ c ∈ xs, c ≠ ',' :=
  fun c hc => keyCharOk_ne_comma ((List.all_eq_true.mp h) c hc)

/-- A string of selector-legal characters holds no closing brace. -/
theorem all_selCharOk_no_close {xs : List Char} (h : xs.all selCharOk = true) :
    ∀ c ∈ xs, c ≠ '\x7d' :=
  fun c hc => (selCharOk_spec ((List.all_eq_true.mp h) c hc)).2

/-- On a brace-free clause, the raw key is the whole clause and the
selector position is absent. -/
theorem clauseParts_noBrace {cs : List Char}
    (hopen : ∀ c ∈ cs, c ≠ '\x7b') (hclose : ∀ c ∈ cs, c ≠ '\x7d') :
    clauseRawKey cs = cs ∧ clauseSelector cs = none := by
  have h1 : replaceFirstBrace cs = cs := replaceFirstBrace_noOpen hopen
  have h2 : splitCloseBraceRaw cs = [cs] := splitCloseBraceRaw_noClose hclose
  constructor
  · simp [clauseRawKey, splitCloseBrace, h1, h2]
  · simp [clauseSelector, splitCloseBrace, h1, h2]

/-- On a braced-selector clause, the raw key is the body following the
closing brace (whitespace eaten) and the selector is recovered. -/
theorem clauseParts_sel {s body : List Char}
    (hs : s.all selCharOk = true)
    (hbody_close : ∀ c ∈ body, c ≠ '\x7d')
    (hbody_drop : dropSpaces body = body) :
    clauseRawKey ('\x7b' :: (s ++ '\x7d' :: ' ' :: body)) = body ∧
      clauseSelector ('\x7b' :: (s ++ '\x7d' :: ' ' :: body)) = some s := by
  have h1 : replaceFirstBrace ('\x7b' :: (s ++ '\x7d' :: ' ' :: body)) =
      s ++ '\x7d' :: ' ' :: body := by
    unfold replaceFirstBrace
    simp
  have h3 : splitCloseBraceRaw (' ' :: body) = [' ' :: body] := by
    refine splitCloseBraceRaw_noClose ?_
    intro c hc
    rcases List.mem_cons.mp hc with h | h
    · rw [h]; decide
    · exact hbody_close c h
  have h2 : splitCloseBraceRaw (s ++ '\x7d' :: ' ' :: body) =
      s :: splitCloseBraceRaw (' ' :: body) :=
    splitCloseBraceRaw_append _ (all_selCharOk_no_close hs)
  have h4 : splitCloseBrace (replaceFirstBrace ('\x7b' :: (s ++ '\x7d' :: ' ' :: body))) =
      [s, body] := by
    rw [h1]
    unfold splitCloseBrace
    rw [h2, h3]
    simp [dropSpaces_space, hbody_drop]
  constructor
  · unfold clauseRawKey
    rw [h4]
    rfl
  · unfold clauseSelector
    rw [h4]
    rfl

/-- The rendering of a rule body, spelled out on an explicit `Rule`. -/
theorem ruleBody_mk (k : RKey) (sel : Option (List Char)) (d : Bool) :
    ruleBody ⟨k, sel, d⟩ = (if d then ['>'] else []) ++ keyStr k := rfl

/-- The rendering of a well-formed key never starts with the descending
marker. -/
theorem keyStr_head_ne_gt {k : RKey} (hwf : wfKey k = true) :
    (keyStr k).head? ≠ some '>' := by
  cases k with
  | attr s =>
    cases s with
    | nil => simp [wfKey] at hwf
    | cons c0 rest =>
      have hgt : c0 ≠ '>' := by
        simp only [wfKey, Bool.and_eq_true, Bool.not_eq_true',
          decide_eq_false_iff_not] at hwf
        exact hwf.1.1.2
      simp [keyStr, hgt]
  | path segs => simp [keyStr]

/-- Recovering a rule from a clause whose raw key and selector positions
match a serialized rule with a well-formed key. -/
theorem parseClause_parts {cs : List Char} {k : RKey} {sel : Option (List Char)} {d : Bool}
    (hraw : clauseRawKey cs = ruleBody ⟨k, sel, d⟩)
    (hsel : clauseSelector cs = sel)
    (hwf : wfKey k = true) :
    parseClause cs = ⟨k, sel, d⟩ := by
  have hstr : clauseStripped cs = keyStr k := by
    unfold clauseStripped
    rw [hraw, ruleBody_mk]
    cases d with
    | true => simp
    | false =>
      simp only [if_false, List.nil_append, Bool.false_eq_true]
      rw [if_neg (keyStr_head_ne_gt hwf)]
  have hdesc : (decide ((clauseRawKey cs).head? = some '>')) = d := by
    rw [hraw, ruleBody_mk]
    cases d with
    | true => simp
    | false =>
      simp only [if_false, List.nil_append, Bool.false_eq_true]
      simp [keyStr_head_ne_gt hwf]
  have hkey : (if (clauseStripped cs).head? = some '.' then
        RKey.path (splitDot (clauseStripped cs)).tail
      else if clauseStripped cs = [] then RKey.path [innerTextKey]
      else RKey.attr (clauseStripped cs)) = k := by
    rw [hstr]
    cases k with
    | attr s =>
      cases s with
      | nil => simp [wfKey] at hwf
      | cons c0 rest =>
        have hdot : c0 ≠ '.' := by
          simp only [wfKey, Bool.and_eq_true, Bool.not_eq_true',
            decide_eq_false_iff_not] at hwf
          exact hwf.1.2
        simp [keyStr, hdot]
    | path segs =>
      have hne : segs ≠ [] := by
        simp only [wfKey, Bool.and_eq_true] at hwf
        simpa using hwf.1
      have hall : ∀ s ∈ segs, s.all segCharOk = true := by
        simp only [wfKey, Bool.and_eq_true] at hwf
        exact List.all_eq_true.mp hwf.2
      rw [show keyStr (.path segs) = '.' :: joinDot segs from rfl]
      rw [if_pos (by simp)]
      rw [splitDot_cons, if_pos rfl]
      simp [splitDot_joinDot hne hall]
  show (⟨_, clauseSelector cs, _⟩ : Rule) = ⟨k, sel, d⟩
  rw [hkey, hsel, hdesc]

/-- The serialized form of a well-formed rule with a selector: an
explicit braced prefix before the space and body. -/
theorem serializeRule_sel {k : RKey} {s : List Char} {d : Bool}
    (hne : s ≠ []) :
    serializeRule ⟨k, some s, d⟩ =
      '\x7b' :: (s ++ '\x7d' :: ' ' :: ruleBody ⟨k, some s, d⟩) := by
  unfold serializeRule selPart
  dsimp only
  rw [if_neg hne]
  simp

/-- The serialized form of a selectorless rule: a space then the body. -/
theorem serializeRule_noSel {k : RKey} {d : Bool} :
    serializeRule ⟨k, none, d⟩ = ' ' :: ruleBody ⟨k, none, d⟩ := rfl

/-- Parsing the serialization of a well-formed rule with a selector
recovers the rule. -/
theorem parseClause_serializeRule_sel {r : Rule} {s : List Char}
    (hwf : wfRule r = true) (hsel : r.selector = some s) :
    parseClause (serializeRule r) = r := by
  obtain ⟨k, sel, d⟩ := r
  simp only at hsel
  subst hsel
  have hw := hwf
  simp only [wfRule, Bool.and_eq_true] at hw
  have hwsel := hw.2
  simp only [wfSelector, Bool.and_eq_true] at hwsel
  have hsne : s ≠ [] := by simpa using hwsel.1
  have hs_all : s.all selCharOk = true := hwsel.2
  have hbody_close : ∀ c ∈ ruleBody ⟨k, some s, d⟩, c ≠ '\x7d' :=
    all_keyCharOk_no_close (ruleBody_all hwf)
  have hbody_drop : dropSpaces (ruleBody ⟨k, some s, d⟩) = ruleBody ⟨k, some s, d⟩ :=
    dropSpaces_ruleBody hwf
  rw [serializeRule_sel hsne]
  obtain ⟨hraw, hsel2⟩ := clauseParts_sel hs_all hbody_close hbody_drop
  exact parseClause_parts hraw hsel2 hw.1

/-- Parsing the bare body of a well-formed selectorless rule recovers the
rule. -/
theorem parseClause_body_noSel {r : Rule} (hwf : wfRule r = true)
    (hsel : r.selector = none) :
    parseClause (ruleBody r) = r := by
  obtain ⟨k, sel, d⟩ := r
  simp only at hsel
  subst hsel
  have hw := hwf
  simp only [wfRule, Bool.and_eq_true] at hw
  have hall := ruleBody_all hwf
  obtain ⟨hraw, hsel2⟩ :=
    clauseParts_noBrace (all_keyCharOk_no_open hall) (all_keyCharOk_no_close hall)
  exact parseClause_parts hraw hsel2 hw.1

/-- Parsing a serialized well-formed rule after a separator (which eats
the leading whitespace) recovers the rule, selector or not. -/
theorem parseClause_dropSpaces_serializeRule {r : Rule} (hwf : wfRule r = true) :
    parseClause (dropSpaces (' ' :: serializeRule r)) = r := by
  rw [dropSpaces_space]
  obtain ⟨k, sel, d⟩ := r
  cases sel with
  | some s =>
    have hw := hwf
    simp only [wfRule, Bool.and_eq_true] at hw
    have hwsel := hw.2
    simp only [wfSelector, Bool.and_eq_true] at hwsel
    have hsne : s ≠ [] := by simpa using hwsel.1
    rw [serializeRule_sel hsne]
    rw [dropSpaces_of_head _ (by decide)]
    rw [← serializeRule_sel hsne]
    exact parseClause_serializeRule_sel hwf rfl
  | none =>
    rw [serializeRule_noSel, dropSpaces_space, dropSpaces_ruleBody hwf]
    exact parseClause_body_noSel hwf rfl

/-- Every comma in a serialized well-formed rule is protected in every
continuation: keys are comma-free, and a comma inside the selector always
sees the selector's own closing brace first. -/
theorem commasProtected_serializeRule {r : Rule} (hwf : wfRule r = true)
    (ys : List Char) : commasProtected (serializeRule r) ys = true := by
  obtain ⟨k, sel, d⟩ := r
  have hbody : ∀ c ∈ ruleBody ⟨k, sel, d⟩, c ≠ ',' :=
    all_keyCharOk_no_comma (ruleBody_all hwf)
  cases sel with
  | none =>
    rw [serializeRule_noSel]
    refine commasProtected_of_commaFree ys ?_
    intro c hc
    rcases List.mem_cons.mp hc with h | h
    · rw [h]; decide
    · exact hbody c h
  | some s =>
    have hw := hwf
    simp only [wfRule, Bool.and_eq_true] at hw
    have hwsel := hw.2
    simp only [wfSelector, Bool.and_eq_true] at hwsel
    have hsne : s ≠ [] := by simpa using hwsel.1
    have hs_all : s.all selCharOk = true := hwsel.2
    rw [serializeRule_sel hsne]
    rw [show commasProtected ('\x7b' :: (s ++ '\x7d' :: ' ' :: ruleBody ⟨k, some s, d⟩)) ys =
      ((if '\x7b' = ',' then
          braceAheadClosed ((s ++ '\x7d' :: ' ' :: ruleBody ⟨k, some s, d⟩) ++ ys)
        else true) &&
        commasProtected (s ++ '\x7d' :: ' ' :: ruleBody ⟨k, some s, d⟩) ys) from rfl]
    rw [if_neg (by decide), Bool.true_and]
    rw [commasProtected_append]
    rw [Bool.and_eq_true]
    refine ⟨?_, ?_⟩
    · rw [show ('\x7d' :: ' ' :: ruleBody ⟨k, some s, d⟩) ++ ys =
        '\x7d' :: (' ' :: ruleBody ⟨k, some s, d⟩ ++ ys) from rfl]
      exact commasProtected_braceFree_close _ hs_all
    · refine commasProtected_of_commaFree ys ?_
      intro c hc
      rcases List.mem_cons.mp hc with h | h
      · rw [h]; decide
      · rcases List.mem_cons.mp h with h2 | h2
        · rw [h2]; decide
        · exact hbody c h2

/-- The serialized form of a well-formed rule list never starts its first
brace with a closing brace (its first brace, if any, opens a selector). -/
theorem braceAheadClosed_serializeBy {rules : List Rule}
    (h : ∀ r ∈ rules, wfRule r = true) :
    braceAheadClosed (serializeBy rules) = false := by
  induction rules with
  | nil => rfl
  | cons r0 rest ih =>
    have h0 := h r0 (List.mem_cons_self r0 rest)
    have hbody : (ruleBody r0).all selCharOk = true := by
      have := ruleBody_all h0
      simp only [List.all_eq_true] at this ⊢
      exact fun c hc => keyCharOk_selCharOk (this c hc)
    obtain ⟨k, sel, d⟩ := r0
    cases sel with
    | some s =>
      have hw := h0
      simp only [wfRule, Bool.and_eq_true] at hw
      have hwsel := hw.2
      simp only [wfSelector, Bool.and_eq_true] at hwsel
      have hsne : s ≠ [] := by simpa using hwsel.1
      cases rest with
      | nil =>
        show braceAheadClosed (joinRules [serializeRule ⟨k, some s, d⟩]) = false
        rw [show joinRules [serializeRule ⟨k, some s, d⟩] =
          serializeRule ⟨k, some s, d⟩ from rfl]
        rw [serializeRule_sel hsne]
        rfl
      | cons r1 rs =>
        show braceAheadClosed (serializeRule ⟨k, some s, d⟩ ++
          ',' :: ' ' :: serializeBy (r1 :: rs)) = false
        rw [serializeRule_sel hsne]
        rfl
    | none =>
      have hspace : (' ' :: ruleBody ⟨k, none, d⟩).all selCharOk = true := by
        simp only [List.all_cons, Bool.and_eq_true]
        exact ⟨by decide, hbody⟩
      cases rest with
      | nil =>
        show braceAheadClosed (joinRules [serializeRule ⟨k, none, d⟩]) = false
        rw [show joinRules [serializeRule ⟨k, none, d⟩] =
          serializeRule ⟨k, none, d⟩ from rfl]
        rw [serializeRule_noSel]
        exact braceAheadClosed_braceFree hspace
      | cons r1 rs =>
        show braceAheadClosed (serializeRule ⟨k, none, d⟩ ++
          ',' :: ' ' :: serializeBy (r1 :: rs)) = false
        rw [serializeRule_noSel]
        rw [braceAheadClosed_append_braceFree _ hspace]
        rw [show braceAheadClosed (',' :: ' ' :: serializeBy (r1 :: rs)) =
          braceAheadClosed (serializeBy (r1 :: rs)) from rfl]
        exact ih fun r hr => h r (List.mem_cons_of_mem _ hr)

/-- Unfolding of the serializer on a list with at least two rules. -/
theorem serializeBy_cons₂ (r0 r1 : Rule) (rs : List Rule) :
    serializeBy (r0 :: r1 :: rs) =
      serializeRule r0 ++ ',' :: ' ' :: serializeBy (r1 :: rs) := rfl

/-- The serialization of a non-empty rule list is non-empty. -/
theorem serializeBy_cons_ne_nil (r0 : Rule) (rs : List Rule) :
    serializeBy (r0 :: rs) ≠ [] := by
  have hser : serializeRule r0 ≠ [] := by
    unfold serializeRule
    intro hx
    exact List.cons_ne_nil _ _ (List.append_eq_nil.mp hx).2
  cases rs with
  | nil => exact hser
  | cons r1 rest =>
    rw [serializeBy_cons₂]
    intro hx
    exact List.cons_ne_nil _ _ (List.append_eq_nil.mp hx).2

/-- Splitting the serialization of a well-formed rule list at unprotected
commas yields the first rule's full rendering followed by the later
rules' renderings, each still led by the space the separator's `\s*` will
consume. -/
theorem splitCommasRaw_serializeBy (r0 : Rule) (rs : List Rule)
    (h : ∀ r ∈ r0 :: rs, wfRule r = true) :
    splitCommasRaw (serializeBy (r0 :: rs)) =
      serializeRule r0 :: rs.map (fun r => ' ' :: serializeRule r) := by
  induction rs generalizing r0 with
  | nil =>
    have h0 := h r0 (List.mem_cons_self r0 [])
    have hx := @splitCommasRaw_append (serializeRule r0) []
      (commasProtected_serializeRule h0 [])
    simp only [List.append_nil] at hx
    rw [show serializeBy [r0] = serializeRule r0 from rfl, hx]
    rw [show splitCommasRaw ([] : List Char) = [[]] from rfl]
    simp [consAppend]
  | cons r1 rest ih =>
    have h0 := h r0 (List.mem_cons_self _ _)
    have htail : ∀ r ∈ r1 :: rest, wfRule r = true :=
      fun r hr => h r (List.mem_cons_of_mem _ hr)
    rw [serializeBy_cons₂]
    rw [splitCommasRaw_append _ (commasProtected_serializeRule h0 _)]
    have hb : braceAheadClosed (serializeBy (r1 :: rest)) = false :=
      braceAheadClosed_serializeBy htail
    have hcondT : (',' = ',' && !braceAheadClosed (' ' :: serializeBy (r1 :: rest))) = true := by
      rw [show braceAheadClosed (' ' :: serializeBy (r1 :: rest)) =
        braceAheadClosed (serializeBy (r1 :: rest)) from rfl, hb]
      simp
    have hcondF : (' ' = ',' && !braceAheadClosed (serializeBy (r1 :: rest))) = false := by
      simp
    have hsep : splitCommasRaw (',' :: ' ' :: serializeBy (r1 :: rest)) =
        [] :: consHead ' ' (splitCommasRaw (serializeBy (r1 :: rest))) := by
      rw [splitCommasRaw_cons, hcondT, if_pos rfl]
      rw [splitCommasRaw_cons, hcondF, if_neg (by simp)]
    rw [hsep, ih r1 htail]
    simp [consAppend, consHead]

/-- Parsing the separator-trimmed serializations of well-formed rules
recovers the rules. -/
theorem map_parseClause_tail {rs : List Rule} (h : ∀ r ∈ rs, wfRule r = true) :
    (((rs.map fun r => ' ' :: serializeRule r).map dropSpaces).map parseClause) = rs := by
  induction rs with
  | nil => rfl
  | cons r1 rest ih =>
    simp only [List.map_cons]
    rw [parseClause_dropSpaces_serializeRule (h r1 (List.mem_cons_self _ _))]
    rw [ih fun r hr => h r (List.mem_cons_of_mem _ hr)]

/-- Claim C2 as amended: the parse-serialize round-trip is exact for
every rule list that is well-formed for the textual grammar — attribute
keys non-empty, free of commas and braces, and not starting with `>`,
`.`, or JS whitespace (the full `\s` class, which the program's `,\s*`
and the closing brace's `\s*` separators consume); path segment lists
non-empty with segments free of
dots, commas and braces; selectors (when present) non-empty and
brace-free — and whose FIRST rule carries a selector.  The first-rule
restriction is forced by the counterexample: the serializer always emits
a space before the key expression, and only a selector's closing brace
(or a preceding comma separator) lets the parser consume it. -/
theorem c2_roundtrip_amended (rules : List Rule)
    (hwf : wfRules rules = true) (hfst : firstHasSelector rules = true) :
    parseToRules (some (serializeBy rules)) = rules := by
  cases rules with
  | nil => rfl
  | cons r0 rs =>
    have hall : ∀ r ∈ r0 :: rs, wfRule r = true := by
      intro r hr
      exact (List.all_eq_true.mp hwf) r hr
    have hne : serializeBy (r0 :: rs) ≠ [] := serializeBy_cons_ne_nil r0 rs
    show (if serializeBy (r0 :: rs) = [] then []
      else (splitCommas (serializeBy (r0 :: rs))).map parseClause) = r0 :: rs
    rw [if_neg hne]
    unfold splitCommas
    rw [splitCommasRaw_serializeBy r0 rs hall]
    dsimp only
    have h0 : wfRule r0 = true := hall r0 (List.mem_cons_self r0 rs)
    obtain ⟨s, hs⟩ : ∃ s, r0.selector = some s := by
      cases hsel : r0.selector with
      | none =>
        rw [show firstHasSelector (r0 :: rs) = r0.selector.isSome from rfl,
          hsel] at hfst
        simp at hfst
      | some s => exact ⟨s, rfl⟩
    simp only [List.map_cons]
    rw [parseClause_serializeRule_sel h0 hs]
    rw [map_parseClause_tail fun r hr => hall r (List.mem_cons_of_mem _ hr)]

/-- Witness for C2 as amended: a concrete well-formed two-rule list — a
descending attribute rule with a comma-bearing selector, then a
selectorless property-path rule — round-trips exactly. -/
theorem c2_roundtrip_witness :
    wfRules c2WitnessRules = true ∧ firstHasSelector c2WitnessRules = true ∧
      parseToRules (some (serializeBy c2WitnessRules)) = c2WitnessRules :=
  ⟨by decide, by decide, c2_roundtrip_amended c2WitnessRules (by decide) (by decide)⟩

end DsSorter
